import Mathlib

/-!
Shallow embedding of the conversation-state core of the `infinite-chat`
repository (src/src/character/manager.ts and src/src/core/types.ts):
the sliding-window context manager with threshold-triggered compaction,
the local memory store, agent selection and bounded agent chaining.

Environmental effects (uuid generation, `Date.now()`, `Math.random()`,
LLM responses) enter the model as explicit oracle parameters.
-/

namespace InfiniteChat

/-- Message role, `'user' | 'assistant' | 'system'` in core/types.ts. -/
inductive Role where
  | user
  | assistant
  | system
deriving DecidableEq, Repr

/-- `Message` from core/types.ts.  The `metadata` field (an untyped JS
record, unused by the modelled code paths) is omitted; `id` and
`timestamp` are environment-supplied (uuidv4 / Date.now) and are passed
in explicitly where the code generates them. -/
structure Message where
  id : String
  sessionId : String
  role : Role
  content : String
  timestamp : Nat
  agentId : Option String := none
deriving DecidableEq, Repr

/-- `MemoryConfig` from core/types.ts (vectorDb is unused by ContextManager). -/
structure MemoryConfig where
  shortTermWindow : Nat
  compressThreshold : Nat
deriving DecidableEq, Repr

/-- The shipped startup configuration (src/test-start.ts `config.memory`). -/
def startupMemoryConfig : MemoryConfig :=
  { shortTermWindow := 20, compressThreshold := 50 }

/-- Per-session state of `ContextManager`: the live window
(`shortTermMemory.get(sessionId)`) and the summary list
(`summaries.get(sessionId)`). -/
structure SessionState where
  msgs : List Message
  summaries : List String
deriving DecidableEq, Repr

/-- The empty per-session state (a sessionId not present in either map). -/
def SessionState.init : SessionState := { msgs := [], summaries := [] }

/-- `ContextManager.generateSimpleSummary`. -/
def generateSimpleSummary (messages : List Message) : String :=
  let userMsgs := (messages.filter (fun m => m.role == Role.user)).map (fun m => m.content)
  let assistantMsgs :=
    (messages.filter (fun m => m.role == Role.assistant)).map (fun m => m.content)
  "对话涉及 " ++ toString userMsgs.length ++ " 个用户问题和 " ++
    toString assistantMsgs.length ++ " 个回复。" ++
    "主要话题：" ++ String.intercalate ", " (userMsgs.take 3) ++ "..."

/-- One `ContextManager.addMessage` call on a single session, given the
fully populated message (the code fills `id`/`timestamp` from the
environment).  After `push`, the code compares `messages.length` against
`compressThreshold`; `compressHistory` additionally returns early when
fewer than 10 turns are present.  When compression executes it stores a
fresh array (`toKeep`) in the map, so the subsequent
`messages.shift()` acts on the stale local array and leaves the stored
window untouched; otherwise the shift drops the oldest stored turn. -/
def addMessageSession (cfg : MemoryConfig) (st : SessionState) (m : Message) : SessionState :=
  let msgs1 := st.msgs ++ [m]
  if cfg.compressThreshold ≤ msgs1.length ∧ 10 ≤ msgs1.length then
    { msgs := msgs1.drop (msgs1.length / 2)
      summaries := st.summaries ++ [generateSimpleSummary (msgs1.take (msgs1.length / 2))] }
  else
    { msgs := if cfg.shortTermWindow < msgs1.length then msgs1.drop 1 else msgs1
      summaries := st.summaries }

/-- A sequence of `addMessage` calls on one session. -/
def runAdd (cfg : MemoryConfig) (ms : List Message) (st : SessionState) : SessionState :=
  ms.foldl (fun s m => addMessageSession cfg s m) st

/-- `ContextManager.getStats(sessionId)`: `{messages, summaries}` counts. -/
def getStatsSession (st : SessionState) : Nat × Nat :=
  (st.msgs.length, st.summaries.length)

/-- `ContextManager.getContext(sessionId)` on a session's state.  `now`
stands for `Date.now()` on the synthetic summary turn. -/
def getContextSession (st : SessionState) (sessionId : String) (now : Nat) : List Message :=
  if 0 < st.summaries.length then
    { id := "summary", sessionId := sessionId, role := Role.system
      content := "[历史摘要]\n" ++ String.intercalate "\n\n" st.summaries
      timestamp := now, agentId := none } :: st.msgs
  else
    st.msgs

/-- The whole `ContextManager`: both session-keyed maps, a map miss
reading as the empty state (the code defaults with `|| []`). -/
def ContextManager : Type := String → SessionState

/-- A fresh `ContextManager` (both maps empty). -/
def ContextManager.init : ContextManager := fun _ => SessionState.init

/-- `addMessage(sessionId, message)` at the manager level. -/
def cmAddMessage (cfg : MemoryConfig) (cm : ContextManager) (sessionId : String)
    (m : Message) : ContextManager :=
  fun s => if s = sessionId then addMessageSession cfg (cm sessionId) m else cm s

/-- A run of `addMessage` calls (sessionId, message) from a fresh manager. -/
def cmRun (cfg : MemoryConfig) (ops : List (String × Message)) : ContextManager :=
  ops.foldl (fun cm p => cmAddMessage cfg cm p.1 p.2) ContextManager.init

/-- `getContext(sessionId)` at the manager level. -/
def cmGetContext (cm : ContextManager) (sessionId : String) (now : Nat) : List Message :=
  getContextSession (cm sessionId) sessionId now

/-! ## JavaScript string primitives used by manager.ts -/

/-- `String.prototype.toLowerCase` (ASCII range; neither the code's
Chinese literals nor the claims exercise non-ASCII case mapping). -/
def jsToLower (s : String) : String := String.mk (s.toList.map Char.toLower)

/-- `hay` begins with `nee` (character lists). -/
def listStartsWith : List Char → List Char → Bool
  | _, [] => true
  | [], _ :: _ => false
  | a :: as, b :: bs => a == b && listStartsWith as bs

/-- Helper for `strIncludes`: does `nee` occur in the haystack? -/
def includesAux (nee : List Char) : List Char → Bool
  | [] => listStartsWith [] nee
  | c :: rest => listStartsWith (c :: rest) nee || includesAux nee rest

/-- `s.includes(sub)`: substring containment, as in JS. -/
def strIncludes (s sub : String) : Bool := includesAux sub.toList s.toList

/-- A JS regex `\w` word character: `[A-Za-z0-9_]`. -/
def jsIsWordChar (c : Char) : Bool :=
  ('a' ≤ c && c ≤ 'z') || ('A' ≤ c && c ≤ 'Z') || ('0' ≤ c && c ≤ '9') || c == '_'

/-- Scan for the first match of `/@(\w+)/` and return its capture group:
the first `@` that is immediately followed by at least one word
character, capturing the maximal word-character run after it. -/
def atMatchAux : List Char → Option (List Char)
  | [] => none
  | c :: rest =>
    if c == '@' then
      let w := rest.takeWhile jsIsWordChar
      if w.isEmpty then atMatchAux rest else some w
    else atMatchAux rest

/-- `content.match(/@(\w+)/)`, yielding the captured word if any. -/
def jsAtMatch (s : String) : Option String :=
  (atMatchAux s.toList).map (fun l => String.mk l)

/-- A JS regex `\s` whitespace character (ASCII part; the exotic Unicode
space classes are never produced by the modelled call sites). -/
def jsIsSpace (c : Char) : Bool :=
  c == ' ' || c == '\t' || c == '\n' || c == '\r' ||
    c == Char.ofNat 11 || c == Char.ofNat 12

mutual

/-- Split a character list on maximal whitespace runs, keeping the
(possibly empty) segments between them, as `split(/\s+/)` does; `acc`
holds the reversed current segment. -/
def splitWsAux : List Char → List Char → List (List Char)
  | [], acc => [acc.reverse]
  | c :: rest, acc =>
    if jsIsSpace c then acc.reverse :: splitWsSkip rest
    else splitWsAux rest (c :: acc)

/-- Consume the remainder of a whitespace run, then resume segment
collection (an exhausted input leaves the trailing empty segment). -/
def splitWsSkip : List Char → List (List Char)
  | [] => [[]]
  | c :: rest => if jsIsSpace c then splitWsSkip rest else splitWsAux rest [c]

end

/-- `query.split(/\s+/)` on strings. -/
def jsSplitWs (s : String) : List String :=
  (splitWsAux s.toList []).map (fun l => String.mk l)

/-! ## AgentManager (manager.ts) -/

/-- `Agent` from core/types.ts.  `triggers?` being absent behaves like
the empty list under the code's `if (agent.triggers)` guard;
`llmOverride`/`description` play no part in the modelled paths. -/
structure Agent where
  id : String
  name : String
  systemPrompt : String
  triggers : List String := []
  isDefault : Bool := false
deriving DecidableEq, Repr

/-- `AgentManager` state: `agents` is the `Map` in insertion order
(ids unique), plus the remembered default id. -/
structure AgentManager where
  agents : List Agent
  defaultAgentId : Option String := none
deriving DecidableEq, Repr

/-- A fresh `AgentManager`. -/
def AgentManager.init : AgentManager := { agents := [] }

/-- `AgentManager.registerAgent`: `Map.set` keeps the original position
of an existing id and appends a new one; a default agent records its id. -/
def registerAgent (am : AgentManager) (a : Agent) : AgentManager :=
  let agents :=
    if am.agents.any (fun b => b.id == a.id) then
      am.agents.map (fun b => if b.id == a.id then a else b)
    else am.agents ++ [a]
  { agents := agents
    defaultAgentId := if a.isDefault then some a.id else am.defaultAgentId }

/-- `AgentManager.getAgent`. -/
def getAgent (am : AgentManager) (agentId : String) : Option Agent :=
  am.agents.find? (fun b => b.id == agentId)

/-- `AgentManager.getDefaultAgent`: the recorded default id is looked up
(and may miss); with no recorded id the first registered agent is used. -/
def getDefaultAgent (am : AgentManager) : Option Agent :=
  match am.defaultAgentId with
  | some id => getAgent am id
  | none => am.agents.head?

/-- The trigger-keyword rule of `selectAgent`: first agent in
registration order having a trigger that occurs (case-insensitively) in
the content. -/
def triggerAgent (am : AgentManager) (content : String) : Option Agent :=
  am.agents.find? (fun a => a.triggers.any (fun t => strIncludes (jsToLower content) (jsToLower t)))

/-- The `@mention` rule of `selectAgent`: if `/@(\w+)/` matches, the
first agent whose name contains the captured word (case-insensitively). -/
def mentionAgent (am : AgentManager) (content : String) : Option Agent :=
  match jsAtMatch content with
  | some w => am.agents.find? (fun a => strIncludes (jsToLower a.name) (jsToLower w))
  | none => none

/-- The conversation-continuity rule of `selectAgent`: the most recent
assistant turn of the context, provided that this very turn carries a
(non-empty, per JS truthiness) `agentId` of a registered agent. -/
def continuityAgent (am : AgentManager) (context : List Message) : Option Agent :=
  match (context.reverse).find? (fun m => m.role == Role.assistant) with
  | some la =>
    match la.agentId with
    | some aid => if aid.isEmpty then none else getAgent am aid
    | none => none
  | none => none

/-- `AgentManager.selectAgent(content, context)`: trigger keyword, then
explicit mention, then continuity, then the default agent (the code's
trailing `!` makes an absent default a caller error; the model returns
`none` there). -/
def selectAgent (am : AgentManager) (content : String) (context : List Message) : Option Agent :=
  match triggerAgent am content with
  | some a => some a
  | none =>
    match mentionAgent am content with
    | some a => some a
    | none =>
      match continuityAgent am context with
      | some a => some a
      | none => getDefaultAgent am

/-! ## ChainController (manager.ts) -/

/-- `GroupChatConfig` from core/types.ts.  `chainThreshold` only ever
feeds the comparison `Math.random() < chainThreshold`, whose outcomes
enter the model as a Boolean draw oracle. -/
structure GroupChatConfig where
  enabled : Bool
  agentInteraction : Bool
  maxAgentChain : Nat
  chainThreshold : Rat := 0
deriving DecidableEq, Repr

/-- Result shape of `shouldChainAgent`. -/
structure ChainDecision where
  shouldChain : Bool
  nextAgent : Option Agent := none
deriving DecidableEq, Repr

/-- Try each candidate pattern of one agent against the lowered
response; every textual hit consumes one random draw (`draw k` is the
outcome of `Math.random() < chainThreshold` for the k-th draw).
Returns whether some hit won its draw, and the next draw index. -/
def tryPatterns (responseLower : String) (pats : List String) (draw : Nat → Bool)
    (k : Nat) : Bool × Nat :=
  match pats with
  | [] => (false, k)
  | p :: rest =>
    if strIncludes responseLower (jsToLower p) then
      if draw k then (true, k + 1) else tryPatterns responseLower rest draw (k + 1)
    else tryPatterns responseLower rest draw k

/-- Scan the registered agents (skipping the last speaker) with pattern
set `@name`, `name`, then the agent's triggers; the first agent whose
pattern hit wins a draw is chained to. -/
def chainScan (lastAgentId : String) (response : String) (draw : Nat → Bool) (k : Nat) :
    List Agent → ChainDecision
  | [] => { shouldChain := false }
  | a :: rest =>
    if a.id == lastAgentId then chainScan lastAgentId response draw k rest
    else
      let pats := ("@" ++ a.name) :: a.name :: a.triggers
      let r := tryPatterns (jsToLower response) pats draw k
      if r.1 then { shouldChain := true, nextAgent := some a }
      else chainScan lastAgentId response draw r.2 rest

/-- `AgentManager.shouldChainAgent(lastAgentId, response, chainCount)`. -/
def shouldChainAgent (am : AgentManager) (gc : GroupChatConfig) (lastAgentId : String)
    (response : String) (chainCount : Nat) (draw : Nat → Bool) : ChainDecision :=
  if !gc.enabled || !gc.agentInteraction then { shouldChain := false }
  else if gc.maxAgentChain ≤ chainCount then { shouldChain := false }
  else chainScan lastAgentId response draw 0 am.agents

/-- `ChatBotEngine.sendMessageWithPossibleChain`, abstracted to the
number of responses it sends: one send for the incoming response, then,
while the chain decision is positive, one send per chained LLM response
(`llm d` is the text generated at depth `d`, `draw d` the draw oracle of
that evaluation; a `none` last-agent id stops, as in the code's
early return). -/
def chainSends (am : AgentManager) (gc : GroupChatConfig) (draw : Nat → Nat → Bool)
    (llm : Nat → String) (response : String) (lastAgentId : Option String)
    (chainCount : Nat) : Nat :=
  match lastAgentId with
  | none => 1
  | some aid =>
    let dec := shouldChainAgent am gc aid response chainCount (draw chainCount)
    if h : dec.shouldChain = true then
      have hlt : chainCount < gc.maxAgentChain := by
        have h' : (shouldChainAgent am gc aid response chainCount
            (draw chainCount)).shouldChain = true := h
        by_contra hge
        push_neg at hge
        unfold shouldChainAgent at h'
        split at h' <;> simp at h'
      match dec.nextAgent with
      | some na => 1 + chainSends am gc draw llm (llm chainCount) (some na.id) (chainCount + 1)
      | none => 1
    else 1
termination_by gc.maxAgentChain - chainCount
decreasing_by
  omega

/-! ## Mem0Manager local mode (manager.ts) -/

/-- `Memory` record.  `metadata` (untyped JS record) is omitted; `id`
and the timestamps are environment-supplied (`Date.now()` /
`Math.random()`) and passed in where the code generates them. -/
structure Memory where
  id : String
  content : String
  userId : String
  score : Option Rat := none
  createdAt : Nat := 0
  updatedAt : Nat := 0
deriving DecidableEq, Repr

/-- `localStore`: the `Map<string, Memory[]>` as an association list in
key-insertion order with unique keys. -/
abbrev Store : Type := List (String × List Memory)

/-- `localStore.has(userId)`. -/
def storeHas (store : Store) (uid : String) : Bool :=
  store.any (fun e => e.1 == uid)

/-- `localStore.get(userId) || []`. -/
def storeGet (store : Store) (uid : String) : List Memory :=
  ((store.find? (fun e => e.1 == uid)).map Prod.snd).getD []

/-- The literal alternatives of the `isImportantInfo` regex list (each
regex is an alternation of plain literals; the `i` flag is moot since
no pattern contains a cased letter). -/
def importantLiterals : List String :=
  ["我叫", "我的名字", "我是",
   "我喜欢", "我讨厌", "我偏好",
   "我的工作是", "我是做",
   "我住", "我在", "我的地址",
   "记得", "记住", "别忘了",
   "重要", "关键", "必须"]

/-- `Mem0Manager.isImportantInfo`: some pattern literal occurs in the
content. -/
def isImportantInfo (content : String) : Bool :=
  importantLiterals.any (fun p => strIncludes content p)

/-- The records `addMemoryLocal` creates for one call: user-authored
turns whose content passes the importance heuristic, in message order
(`mkId i` models the generated id of the i-th stored record, `now` the
call's `Date.now()`). -/
def extractedRecords (msgs : List Message) (uid : String) (mkId : Nat → String)
    (now : Nat) : List Memory :=
  ((msgs.filter (fun m => m.role == Role.user && isImportantInfo m.content)).enum).map
    (fun p => { id := mkId p.1, content := p.2.content, userId := uid
                createdAt := now, updatedAt := now })

/-- `Mem0Manager.addMemoryLocal`: ensure the user's entry exists (a new
key is appended at the end of the map order), then push the extracted
records onto that user's list. -/
def addMemoryLocal (store : Store) (msgs : List Message) (uid : String)
    (mkId : Nat → String) (now : Nat) : Store :=
  let recs := extractedRecords msgs uid mkId now
  if storeHas store uid then
    store.map (fun e => if e.1 == uid then (e.1, e.2 ++ recs) else e)
  else
    store ++ [(uid, recs)]

/-- `Mem0Manager.calculateRelevance`: fraction of query words occurring
as substrings of the lowered content (exact rational arithmetic; the
code's float divisions of integers by a fixed denominator order the
same way). -/
def calculateRelevance (content : String) (queryWords : List String) : Rat :=
  let contentLower := jsToLower content
  let score := (queryWords.filter (fun w => strIncludes contentLower w)).length
  if 0 < queryWords.length then (score : Rat) / (queryWords.length : Rat) else 0

/-- The score a search result carries (`m.score!`; always populated on
the search path). -/
def memScore (m : Memory) : Rat := m.score.getD 0

/-- Insert into a descending-by-score list, before the first element of
not-greater score (so an earlier element precedes later equal-scored
ones, as JS's stable `sort((a, b) => b.score - a.score)` guarantees). -/
def insDesc (x : Memory) : List Memory → List Memory
  | [] => [x]
  | y :: ys => if memScore x < memScore y then y :: insDesc x ys else x :: y :: ys

/-- Stable descending sort by score. -/
def sortDesc : List Memory → List Memory
  | [] => []
  | x :: xs => insDesc x (sortDesc xs)

/-- The `.map(...)` callback of `searchMemoryLocal`: a copy of the
record carrying its computed relevance (`{...m, score}`). -/
def rescore (queryWords : List String) (m : Memory) : Memory :=
  { m with score := some (calculateRelevance m.content queryWords) }

/-- The scored-and-screened stage of `searchMemoryLocal`: every stored
record of the user rescored against the query words, then
`.filter(m => m.score! > 0)`. -/
def keptRecords (store : Store) (query uid : String) : List Memory :=
  ((storeGet store uid).map (rescore (jsSplitWs (jsToLower query)))).filter
    (fun m => decide (0 < memScore m))

/-- `Mem0Manager.searchMemoryLocal(query, userId, limit)`: score, drop
zero scores, stable-sort descending, `.slice(0, limit)`. -/
def searchMemoryLocal (store : Store) (query : String) (uid : String)
    (limit : Nat) : List Memory :=
  (sortDesc (keptRecords store query uid)).take limit

/-- `Mem0Manager.getAllMemories` in local mode. -/
def getAllMemoriesLocal (store : Store) (uid : String) : List Memory :=
  storeGet store uid

/-- `Mem0Manager.deleteMemory` in local mode: visit users in map order;
the first list containing the id has its first matching record spliced
out, and the scan stops. -/
def deleteMemoryLocal (store : Store) (memoryId : String) : Store :=
  match store with
  | [] => []
  | (u, ms) :: rest =>
    if ms.any (fun m => m.id == memoryId) then
      (u, ms.eraseP (fun m => m.id == memoryId)) :: rest
    else
      (u, ms) :: deleteMemoryLocal rest memoryId

/-- One local-mode store operation (the interleavings of claim C9). -/
inductive MemOp where
  | add (msgs : List Message) (uid : String) (mkId : Nat → String) (now : Nat)
  | del (memoryId : String)

/-- Apply one operation to the store. -/
def applyMemOp (store : Store) : MemOp → Store
  | MemOp.add msgs uid mkId now => addMemoryLocal store msgs uid mkId now
  | MemOp.del mid => deleteMemoryLocal store mid

/-- Run a sequence of operations from the empty store. -/
def runMemOps (ops : List MemOp) : Store :=
  ops.foldl applyMemOp []

/-- All records the run's `addMemory` calls created for `uid`, in order. -/
def addedFor (ops : List MemOp) (uid : String) : List Memory :=
  ops.foldl
    (fun acc op =>
      match op with
      | MemOp.add msgs u mkId now =>
        if u == uid then acc ++ extractedRecords msgs uid mkId now else acc
      | MemOp.del _ => acc)
    []

/-! ## Agent selection: concrete registries for the spec's examples -/

/-- Agent A of the spec's selection examples: trigger keyword `foo`. -/
def agentA : Agent := { id := "a", name := "A", systemPrompt := "", triggers := ["foo"] }

/-- Agent B of the spec's selection examples: the default agent. -/
def agentB : Agent := { id := "b", name := "B", systemPrompt := "", isDefault := true }

/-- Registry with A registered before B. -/
def amAB : AgentManager := registerAgent (registerAgent AgentManager.init agentA) agentB

/-- Context ending in an assistant turn authored by A. -/
def ctxEndsWithA : List Message :=
  [{ id := "1", sessionId := "s", role := Role.user, content := "hi", timestamp := 0 },
   { id := "2", sessionId := "s", role := Role.assistant, content := "yo", timestamp := 1
     agentId := some "a" }]

/-- Context whose most recent assistant turn carries no `agentId`,
while an older assistant turn was authored by A. -/
def ctxStaleAgentId : List Message :=
  [{ id := "1", sessionId := "s", role := Role.assistant, content := "x", timestamp := 0
     agentId := some "a" },
   { id := "2", sessionId := "s", role := Role.assistant, content := "y", timestamp := 1 }]

/-- Store well-formedness: every record sits under its own userId key. -/
def StoreWF (store : Store) : Prop :=
  ∀ e ∈ store, ∀ m ∈ e.2, m.userId = e.1

/-- A positive chaining decision implies the depth was still below
`maxAgentChain`. -/
theorem shouldChain_lt_max (am : AgentManager) (gc : GroupChatConfig) (aid : String)
    (r : String) (c : Nat) (draw : Nat → Bool)
    (h : (shouldChainAgent am gc aid r c draw).shouldChain = true) :
    c < gc.maxAgentChain := by
  unfold shouldChainAgent at h
  split at h
  · simp at h
  · split at h
    · simp at h
    · omega

/-! ## Lemmas about the context window -/

/-- One `addMessage` keeps the stored window within `shortTermWindow`:
the trim branch drops the overflowing turn, and the compression branch
halves a window of at least 10 turns (so `shortTermWindow ≥ 9` there). -/
theorem addMessageSession_length_le (cfg : MemoryConfig) (st : SessionState) (m : Message)
    (h : st.msgs.length ≤ cfg.shortTermWindow) :
    (addMessageSession cfg st m).msgs.length ≤ cfg.shortTermWindow := by
  simp only [addMessageSession]
  split
  · next hc =>
    simp only [List.length_drop, List.length_append, List.length_singleton] at *
    omega
  · next hc =>
    split
    · next ht =>
      simp only [List.length_drop, List.length_append, List.length_singleton] at *
      omega
    · next ht =>
      simp only [List.length_append, List.length_singleton] at *
      omega

/-- The window bound is preserved along any run of `addMessage` calls. -/
theorem runAdd_length_le (cfg : MemoryConfig) (ms : List Message) (st : SessionState)
    (h : st.msgs.length ≤ cfg.shortTermWindow) :
    (runAdd cfg ms st).msgs.length ≤ cfg.shortTermWindow := by
  induction ms generalizing st with
  | nil => exact h
  | cons m ms ih =>
    exact ih (addMessageSession cfg st m) (addMessageSession_length_le cfg st m h)

/-- Summaries are never removed: an empty summary list after a run means
it was empty before. -/
theorem runAdd_summaries_nil (cfg : MemoryConfig) (ms : List Message) (st : SessionState)
    (h : (runAdd cfg ms st).summaries = []) : st.summaries = [] := by
  induction ms generalizing st with
  | nil => exact h
  | cons m ms ih =>
    have h1 := ih (addMessageSession cfg st m) h
    simp only [addMessageSession] at h1
    split at h1
    · simp at h1
    · exact h1

/-- In a compaction-free run the window length follows
`min (initial + calls) shortTermWindow` exactly. -/
theorem runAdd_length_of_no_summary (cfg : MemoryConfig) (ms : List Message)
    (st : SessionState) (hrun : (runAdd cfg ms st).summaries = [])
    (h : st.msgs.length ≤ cfg.shortTermWindow) :
    (runAdd cfg ms st).msgs.length = min (st.msgs.length + ms.length) cfg.shortTermWindow := by
  induction ms generalizing st with
  | nil => simp [runAdd]; omega
  | cons m ms ih =>
    have hstep : (addMessageSession cfg st m).summaries = [] :=
      runAdd_summaries_nil cfg ms (addMessageSession cfg st m) hrun
    have hrun' : runAdd cfg (m :: ms) st = runAdd cfg ms (addMessageSession cfg st m) := rfl
    rw [hrun'] at hrun ⊢
    have hlen : (addMessageSession cfg st m).msgs.length = min (st.msgs.length + 1) cfg.shortTermWindow := by
      simp only [addMessageSession] at hstep ⊢
      split at hstep
      · next hc =>
        exfalso
        have : st.summaries ++ [generateSimpleSummary ((st.msgs ++ [m]).take ((st.msgs ++ [m]).length / 2))] = [] := hstep
        simp at this
      · next hc =>
        rw [if_neg hc]
        split
        · next ht =>
          simp only [List.length_drop, List.length_append, List.length_singleton] at *
          omega
        · next ht =>
          simp only [List.length_append, List.length_singleton] at *
          omega
    rw [ih (addMessageSession cfg st m) hrun (by omega), hlen]
    simp only [List.length_cons]
    omega

/-- C1.  With `shortTermWindow ≥ 1`, after every `addMessage` call of a
run from a fresh session the live window holds at most
`shortTermWindow` turns, and a compaction-free run of more than
`shortTermWindow` calls leaves `getStats` reporting exactly
`shortTermWindow` messages. -/
theorem addMessage_window_invariant (cfg : MemoryConfig) (ms : List Message)
    (h : 1 ≤ cfg.shortTermWindow) :
    (runAdd cfg ms SessionState.init).msgs.length ≤ cfg.shortTermWindow ∧
    ((runAdd cfg ms SessionState.init).summaries = [] →
      cfg.shortTermWindow < ms.length →
      (getStatsSession (runAdd cfg ms SessionState.init)).1 = cfg.shortTermWindow) := by
  constructor
  · exact runAdd_length_le cfg ms SessionState.init (by simp [SessionState.init])
  · intro hnil hlen
    have hmin := runAdd_length_of_no_summary cfg ms SessionState.init hnil
      (by simp [SessionState.init])
    have hinit : SessionState.init.msgs.length = 0 := rfl
    rw [hinit, Nat.zero_add, Nat.min_eq_right (Nat.le_of_lt hlen)] at hmin
    show (runAdd cfg ms SessionState.init).msgs.length = cfg.shortTermWindow
    exact hmin

/-- C1 witness: three calls on a window of two with a high threshold. -/
theorem addMessage_window_invariant_witness :
    1 ≤ (MemoryConfig.mk 2 100).shortTermWindow ∧
    ((runAdd (MemoryConfig.mk 2 100)
        [{ id := "1", sessionId := "s", role := Role.user, content := "a", timestamp := 0 },
         { id := "2", sessionId := "s", role := Role.user, content := "b", timestamp := 1 },
         { id := "3", sessionId := "s", role := Role.user, content := "c", timestamp := 2 }]
        SessionState.init).msgs.length ≤ (MemoryConfig.mk 2 100).shortTermWindow ∧
      ((runAdd (MemoryConfig.mk 2 100)
        [{ id := "1", sessionId := "s", role := Role.user, content := "a", timestamp := 0 },
         { id := "2", sessionId := "s", role := Role.user, content := "b", timestamp := 1 },
         { id := "3", sessionId := "s", role := Role.user, content := "c", timestamp := 2 }]
        SessionState.init).summaries = [] →
        (MemoryConfig.mk 2 100).shortTermWindow <
          ([{ id := "1", sessionId := "s", role := Role.user, content := "a", timestamp := 0 },
            { id := "2", sessionId := "s", role := Role.user, content := "b", timestamp := 1 },
            { id := "3", sessionId := "s", role := Role.user, content := "c", timestamp := 2 }] : List Message).length →
        (getStatsSession (runAdd (MemoryConfig.mk 2 100)
          [{ id := "1", sessionId := "s", role := Role.user, content := "a", timestamp := 0 },
           { id := "2", sessionId := "s", role := Role.user, content := "b", timestamp := 1 },
           { id := "3", sessionId := "s", role := Role.user, content := "c", timestamp := 2 }]
          SessionState.init)).1 = (MemoryConfig.mk 2 100).shortTermWindow)) :=
  ⟨by decide, addMessage_window_invariant (MemoryConfig.mk 2 100) _ (by decide)⟩

/-- C2.  A call compacts exactly when the appended window length `L`
meets both `compressThreshold` and the 10-turn floor: then exactly one
summary (of the older half) is appended and the window becomes the
turns from index `⌊L/2⌋` on (length `L - ⌊L/2⌋`); otherwise — in
particular whenever `L < 10`, even with the threshold met — the summary
list is untouched and only the sliding-window trim applies. -/
theorem compaction_trigger_shape (cfg : MemoryConfig) (st : SessionState) (m : Message) :
    ((addMessageSession cfg st m).summaries.length = st.summaries.length + 1 ↔
      (cfg.compressThreshold ≤ (st.msgs ++ [m]).length ∧ 10 ≤ (st.msgs ++ [m]).length)) ∧
    (cfg.compressThreshold ≤ (st.msgs ++ [m]).length ∧ 10 ≤ (st.msgs ++ [m]).length →
      (addMessageSession cfg st m).summaries =
        st.summaries ++
          [generateSimpleSummary ((st.msgs ++ [m]).take ((st.msgs ++ [m]).length / 2))] ∧
      (addMessageSession cfg st m).msgs = (st.msgs ++ [m]).drop ((st.msgs ++ [m]).length / 2) ∧
      (addMessageSession cfg st m).msgs.length =
        (st.msgs ++ [m]).length - (st.msgs ++ [m]).length / 2) ∧
    (¬(cfg.compressThreshold ≤ (st.msgs ++ [m]).length ∧ 10 ≤ (st.msgs ++ [m]).length) →
      (addMessageSession cfg st m).summaries = st.summaries ∧
      (addMessageSession cfg st m).msgs =
        (if cfg.shortTermWindow < (st.msgs ++ [m]).length then (st.msgs ++ [m]).drop 1
         else st.msgs ++ [m])) := by
  refine ⟨?_, ?_, ?_⟩
  · constructor
    · intro h
      by_contra hc
      simp only [addMessageSession] at h
      rw [if_neg hc] at h
      simp at h
    · intro hc
      simp only [addMessageSession]
      rw [if_pos hc]
      simp
  · intro hc
    simp only [addMessageSession]
    rw [if_pos hc]
    exact ⟨rfl, rfl, by simp⟩
  · intro hc
    simp only [addMessageSession]
    rw [if_neg hc]
    exact ⟨rfl, rfl⟩

/-- C10 step: while the threshold exceeds `shortTermWindow + 1`, the
appended length never reaches it, so a call below the window bound
neither compacts nor grows past the bound. -/
theorem addMessageSession_no_compress (cfg : MemoryConfig) (st : SessionState) (m : Message)
    (hcfg : cfg.shortTermWindow + 1 < cfg.compressThreshold)
    (h : st.msgs.length ≤ cfg.shortTermWindow) :
    (addMessageSession cfg st m).summaries = st.summaries ∧
    (addMessageSession cfg st m).msgs.length ≤ cfg.shortTermWindow := by
  have hlt : ¬(cfg.compressThreshold ≤ (st.msgs ++ [m]).length ∧ 10 ≤ (st.msgs ++ [m]).length) := by
    simp only [List.length_append, List.length_singleton]
    omega
  simp only [addMessageSession]
  rw [if_neg hlt]
  refine ⟨rfl, ?_⟩
  split
  · next ht =>
    simp only [List.length_drop, List.length_append, List.length_singleton] at *
    omega
  · next ht =>
    simp only [List.length_append, List.length_singleton] at *
    omega

/-- C10.  With `compressThreshold > shortTermWindow + 1` (as in the
shipped 20/50 startup configuration) no run of `addMessage` calls ever
compacts: the summary list stays empty and `getStats` reports zero
summaries. -/
theorem compaction_unreachable (cfg : MemoryConfig) (ms : List Message)
    (hcfg : cfg.shortTermWindow + 1 < cfg.compressThreshold) :
    (runAdd cfg ms SessionState.init).summaries = [] ∧
    (getStatsSession (runAdd cfg ms SessionState.init)).2 = 0 := by
  have main : ∀ (l : List Message) (st : SessionState),
      st.msgs.length ≤ cfg.shortTermWindow → st.summaries = [] →
      (runAdd cfg l st).summaries = [] ∧
      (runAdd cfg l st).msgs.length ≤ cfg.shortTermWindow := by
    intro l
    induction l with
    | nil => intro st h1 h2; exact ⟨h2, h1⟩
    | cons m l ih =>
      intro st h1 h2
      have step := addMessageSession_no_compress cfg st m hcfg h1
      exact ih (addMessageSession cfg st m) step.2 (step.1.trans h2)
  have res := main ms SessionState.init (by simp [SessionState.init]) rfl
  refine ⟨res.1, ?_⟩
  show (runAdd cfg ms SessionState.init).summaries.length = 0
  rw [res.1]
  rfl

/-- C10 witness: the shipped startup configuration with a run of 25
identical user turns never compacts. -/
theorem compaction_unreachable_witness :
    startupMemoryConfig.shortTermWindow + 1 < startupMemoryConfig.compressThreshold ∧
    ((runAdd startupMemoryConfig
        ((List.range 25).map (fun n =>
          { id := toString n, sessionId := "s", role := Role.user
            content := "hi", timestamp := n })) SessionState.init).summaries = [] ∧
      (getStatsSession (runAdd startupMemoryConfig
        ((List.range 25).map (fun n =>
          { id := toString n, sessionId := "s", role := Role.user
            content := "hi", timestamp := n })) SessionState.init)).2 = 0) :=
  ⟨by decide, compaction_unreachable startupMemoryConfig _ (by decide)⟩

/-- Sessions a run never touches keep their state. -/
theorem cmFold_untouched (cfg : MemoryConfig) (ops : List (String × Message))
    (cm : ContextManager) (sid : String) (h : sid ∉ ops.map Prod.fst) :
    (ops.foldl (fun cm p => cmAddMessage cfg cm p.1 p.2) cm) sid = cm sid := by
  induction ops generalizing cm with
  | nil => rfl
  | cons p ops ih =>
    simp only [List.map_cons, List.mem_cons] at h
    push_neg at h
    rw [List.foldl_cons, ih (cmAddMessage cfg cm p.1 p.2) h.2]
    simp only [cmAddMessage]
    rw [if_neg h.1]

/-- C8.  `getContext` prepends one synthetic system turn joining all
stored summaries in creation order exactly when summaries exist,
otherwise returns the live window unchanged; a sessionId never written
yields the empty sequence. -/
theorem getContext_shape (cfg : MemoryConfig) (ops : List (String × Message))
    (cm : ContextManager) (sid : String) (now : Nat) :
    ((cm sid).summaries ≠ [] →
      cmGetContext cm sid now =
        { id := "summary", sessionId := sid, role := Role.system
          content := "[历史摘要]\n" ++ String.intercalate "\n\n" (cm sid).summaries
          timestamp := now, agentId := none } :: (cm sid).msgs) ∧
    ((cm sid).summaries = [] → cmGetContext cm sid now = (cm sid).msgs) ∧
    (sid ∉ ops.map Prod.fst → cmGetContext (cmRun cfg ops) sid now = []) := by
  refine ⟨?_, ?_, ?_⟩
  · intro h
    simp only [cmGetContext, getContextSession]
    rw [if_pos (List.length_pos.mpr h)]
  · intro h
    simp only [cmGetContext, getContextSession]
    rw [if_neg (by simp [h])]
  · intro h
    have huntouched : cmRun cfg ops sid = SessionState.init :=
      cmFold_untouched cfg ops ContextManager.init sid h
    simp only [cmGetContext, huntouched, getContextSession, SessionState.init]
    rfl

/-- The recursive chain sends at most `1 + (maxAgentChain - depth)`
responses from depth `depth`. -/
theorem chainSends_le (am : AgentManager) (gc : GroupChatConfig) (draw : Nat → Nat → Bool)
    (llm : Nat → String) :
    ∀ (k : Nat) (resp : String) (aid : Option String) (c : Nat),
      gc.maxAgentChain - c ≤ k → chainSends am gc draw llm resp aid c ≤ 1 + k := by
  intro k
  induction k with
  | zero =>
    intro resp aid c hk
    cases aid with
    | none => simp [chainSends]
    | some a =>
      unfold chainSends
      dsimp only
      split
      · next h =>
        have hlt := shouldChain_lt_max am gc a resp c (draw c) h
        omega
      · omega
  | succ k ih =>
    intro resp aid c hk
    cases aid with
    | none => simp [chainSends]
    | some a =>
      unfold chainSends
      dsimp only
      split
      · next h =>
        have hlt := shouldChain_lt_max am gc a resp c (draw c) h
        split
        · next na _ =>
          have hrec := ih (llm c) (some na.id) (c + 1) (by omega)
          omega
        · omega
      · omega

/-- C3.  `shouldChainAgent` refuses to chain at depth ≥ `maxAgentChain`
and whenever group chat or agent interaction is disabled, for every
response text and every outcome of the random draws; hence a chain
started at depth 0 sends at most `1 + maxAgentChain` responses, i.e. at
most `maxAgentChain` chained responses after the first. -/
theorem chaining_depth_bounded (am : AgentManager) (gc : GroupChatConfig)
    (draw : Nat → Nat → Bool) (llm : Nat → String) :
    (∀ (aid resp : String) (c : Nat) (d : Nat → Bool),
      gc.maxAgentChain ≤ c → (shouldChainAgent am gc aid resp c d).shouldChain = false) ∧
    (∀ (aid resp : String) (c : Nat) (d : Nat → Bool),
      gc.enabled = false ∨ gc.agentInteraction = false →
      (shouldChainAgent am gc aid resp c d).shouldChain = false) ∧
    (∀ (resp : String) (aid : Option String),
      chainSends am gc draw llm resp aid 0 ≤ 1 + gc.maxAgentChain) := by
  refine ⟨?_, ?_, ?_⟩
  · intro aid resp c d hc
    unfold shouldChainAgent
    split
    · rfl
    · rfl
  · intro aid resp c d hdis
    unfold shouldChainAgent
    split
    · rfl
    · next hout =>
      exfalso
      rcases hdis with h | h <;> simp [h] at hout
  · intro resp aid
    have := chainSends_le am gc draw llm gc.maxAgentChain resp aid 0 (by omega)
    omega

/-- C5.  Selection precedence on the registry {A (trigger `foo`),
B (default)}: a trigger hit beats everything, then an `@` mention, then
continuity with the latest assistant author, then the default. -/
theorem selectAgent_precedence :
    selectAgent amAB "hello foo" [] = some agentA ∧
    selectAgent amAB "@B hi" [] = some agentB ∧
    selectAgent amAB "hello" ctxEndsWithA = some agentA ∧
    selectAgent amAB "hello" [] = some agentB := by
  refine ⟨?_, ?_, ?_, ?_⟩ <;> decide

/-- C4 counterexample.  In `ctxStaleAgentId` the assistant turn carrying
`agentId "a"` (a registered agent) is not the most recent assistant
turn; the claim's continuity rule would pick A, but `selectAgent` only
inspects the most recent assistant turn and falls through to the
default B. -/
theorem selectAgent_continuity_counterexample :
    selectAgent amAB "hello" ctxStaleAgentId = some agentB ∧
    agentB ≠ agentA ∧
    ctxStaleAgentId.map Message.role = [Role.assistant, Role.assistant] ∧
    ctxStaleAgentId.map Message.agentId = [some "a", none] ∧
    getAgent amAB "a" = some agentA ∧
    triggerAgent amAB "hello" = none ∧
    mentionAgent amAB "hello" = none := by
  refine ⟨?_, ?_, ?_, ?_, ?_, ?_, ?_⟩ <;> decide

/-- C4 amended.  When no trigger keyword matches and no mention
resolves, `selectAgent` applies continuity using only the most recent
assistant turn of the context: it returns the agent named by that
turn's own (non-empty) `agentId` when registered; assistant turns
without an `agentId` are not skipped in favour of older ones. -/
theorem selectAgent_continuity (am : AgentManager) (content : String)
    (context : List Message) (la : Message) (aid : String) (ag : Agent)
    (ht : triggerAgent am content = none)
    (hm : mentionAgent am content = none)
    (hla : (context.reverse).find? (fun m => m.role == Role.assistant) = some la)
    (haid : la.agentId = some aid)
    (hne : aid ≠ "")
    (hag : getAgent am aid = some ag) :
    selectAgent am content context = some ag := by
  have hempty : aid.isEmpty = false := by
    cases h : aid.isEmpty
    · rfl
    · exact absurd ((String.isEmpty_iff aid).mp h) hne
  simp only [selectAgent, ht, hm, continuityAgent, hla, haid, hempty, Bool.false_eq_true,
    if_false, hag]

/-- C4 amended witness: on `ctxEndsWithA` the most recent assistant turn
itself carries `agentId "a"`, so continuity selects A. -/
theorem selectAgent_continuity_witness :
    triggerAgent amAB "hello" = none ∧
    mentionAgent amAB "hello" = none ∧
    (ctxEndsWithA.reverse).find? (fun m => m.role == Role.assistant) =
      some { id := "2", sessionId := "s", role := Role.assistant, content := "yo"
             timestamp := 1, agentId := some "a" } ∧
    ({ id := "2", sessionId := "s", role := Role.assistant, content := "yo"
       timestamp := 1, agentId := some "a" } : Message).agentId = some "a" ∧
    "a" ≠ "" ∧
    getAgent amAB "a" = some agentA ∧
    selectAgent amAB "hello" ctxEndsWithA = some agentA :=
  ⟨by decide, by decide, by decide, by decide, by decide, by decide,
    selectAgent_continuity amAB "hello" ctxEndsWithA
      { id := "2", sessionId := "s", role := Role.assistant, content := "yo"
        timestamp := 1, agentId := some "a" } "a" agentA
      (by decide) (by decide) (by decide) (by decide) (by decide) (by decide)⟩

/-! ## Memory store lemmas -/

/-- A store without the key reads as the empty list. -/
theorem storeGet_of_not_has (store : Store) (uid : String)
    (h : storeHas store uid = false) : storeGet store uid = [] := by
  induction store with
  | nil => rfl
  | cons e rest ih =>
    simp only [storeHas, List.any_cons, Bool.or_eq_false_iff] at h
    simp only [storeGet, List.find?]
    rw [h.1]
    exact ih (by simp [storeHas, h.2])

/-- Reading a store whose head entry matches the key. -/
theorem storeGet_cons_pos (e : String × List Memory) (rest : Store) (uid : String)
    (he : (e.1 == uid) = true) : storeGet (e :: rest) uid = e.2 := by
  simp [storeGet, List.find?, he]

/-- Reading a store whose head entry misses the key. -/
theorem storeGet_cons_neg (e : String × List Memory) (rest : Store) (uid : String)
    (he : (e.1 == uid) = false) : storeGet (e :: rest) uid = storeGet rest uid := by
  simp [storeGet, List.find?, he]

/-- Updating the entry of a present key appends to exactly that list. -/
theorem storeGet_update_self (store : Store) (uid : String) (recs : List Memory)
    (hhas : storeHas store uid = true) :
    storeGet (store.map (fun e => if e.1 == uid then (e.1, e.2 ++ recs) else e)) uid =
      storeGet store uid ++ recs := by
  induction store with
  | nil => simp [storeHas] at hhas
  | cons e rest ih =>
    simp only [List.map_cons]
    by_cases he : (e.1 == uid) = true
    · rw [if_pos he]
      rw [storeGet_cons_pos (e.1, e.2 ++ recs) _ uid he, storeGet_cons_pos e rest uid he]
    · have he' : (e.1 == uid) = false := by simpa using he
      rw [if_neg he]
      rw [storeGet_cons_neg e _ uid he', storeGet_cons_neg e rest uid he']
      apply ih
      simpa [storeHas, he'] using hhas

/-- Appending a fresh entry for an absent key makes its list readable. -/
theorem storeGet_append_fresh (store : Store) (uid : String) (recs : List Memory)
    (hhas : storeHas store uid = false) :
    storeGet (store ++ [(uid, recs)]) uid = recs := by
  induction store with
  | nil => exact storeGet_cons_pos (uid, recs) [] uid (by simp)
  | cons e rest ih =>
    simp only [storeHas, List.any_cons, Bool.or_eq_false_iff] at hhas
    rw [List.cons_append, storeGet_cons_neg e _ uid hhas.1]
    exact ih (by simp [storeHas, hhas.2])

/-- `addMemoryLocal` appends exactly the extracted records to the
target user's list. -/
theorem storeGet_addMemoryLocal_self (store : Store) (msgs : List Message) (uid : String)
    (mkId : Nat → String) (now : Nat) :
    storeGet (addMemoryLocal store msgs uid mkId now) uid =
      storeGet store uid ++ extractedRecords msgs uid mkId now := by
  simp only [addMemoryLocal]
  split
  · next hhas => exact storeGet_update_self store uid _ hhas
  · next hhas =>
    have hfalse : storeHas store uid = false := by
      cases h : storeHas store uid
      · rfl
      · exact absurd h hhas
    rw [storeGet_of_not_has store uid hfalse, List.nil_append]
    exact storeGet_append_fresh store uid _ hfalse

/-- Adding memories for one user leaves every other user's list
untouched. -/
theorem storeGet_addMemoryLocal_other (store : Store) (msgs : List Message)
    (uid' uid : String) (mkId : Nat → String) (now : Nat) (hne : uid' ≠ uid) :
    storeGet (addMemoryLocal store msgs uid' mkId now) uid = storeGet store uid := by
  have hbne : (uid' == uid) = false := by simpa using hne
  simp only [addMemoryLocal]
  split
  · next hhas =>
    clear hhas
    induction store with
    | nil => rfl
    | cons e rest ih =>
      simp only [List.map_cons]
      by_cases he : (e.1 == uid') = true
      · have hkey : (e.1 == uid) = false := by
          have heq : e.1 = uid' := by simpa using he
          rw [heq]
          exact hbne
        rw [if_pos he]
        rw [storeGet_cons_neg (e.1, e.2 ++ _) _ uid hkey, storeGet_cons_neg e rest uid hkey]
        exact ih
      · rw [if_neg he]
        by_cases hk : (e.1 == uid) = true
        · rw [storeGet_cons_pos e _ uid hk, storeGet_cons_pos e rest uid hk]
        · have hk' : (e.1 == uid) = false := by simpa using hk
          rw [storeGet_cons_neg e _ uid hk', storeGet_cons_neg e rest uid hk']
          exact ih
  · next hhas =>
    clear hhas
    induction store with
    | nil =>
      rw [List.nil_append, storeGet_cons_neg _ [] uid hbne]
    | cons e rest ih =>
      rw [List.cons_append]
      by_cases hk : (e.1 == uid) = true
      · rw [storeGet_cons_pos e _ uid hk, storeGet_cons_pos e rest uid hk]
      · have hk' : (e.1 == uid) = false := by simpa using hk
        rw [storeGet_cons_neg e _ uid hk', storeGet_cons_neg e rest uid hk']
        exact ih

/-- C7 counterexample.  The importance heuristic consists of
Chinese-language patterns, so the spec's English example `"I live in
Tokyo"` matches none of them: `addMemory` on that single user turn
stores nothing, not one record. -/
theorem addMemory_tokyo_counterexample :
    isImportantInfo "I live in Tokyo" = false ∧
    storeGet (addMemoryLocal []
      [{ id := "m1", sessionId := "s", role := Role.user, content := "I live in Tokyo"
         timestamp := 0 }] "u" (fun _ => "id0") 0) "u" = [] ∧
    (storeGet (addMemoryLocal []
      [{ id := "m1", sessionId := "s", role := Role.user, content := "I live in Tokyo"
         timestamp := 0 }] "u" (fun _ => "id0") 0) "u").length ≠ 1 := by
  refine ⟨?_, ?_, ?_⟩ <;> decide

/-- C7 amended.  `addMemory` scans only user-authored turns and stores
exactly those whose content matches the (Chinese-language) importance
heuristic, appending them to the user's list; a matching turn such as
`"我住在东京"` ("I live in Tokyo") yields exactly one record, while the
English `"I live in Tokyo"` and `"nice weather today"` match no pattern
and yield none. -/
theorem addMemory_extraction (store : Store) (msgs : List Message) (uid : String)
    (mkId : Nat → String) (now : Nat) :
    storeGet (addMemoryLocal store msgs uid mkId now) uid =
      storeGet store uid ++ extractedRecords msgs uid mkId now ∧
    (extractedRecords msgs uid mkId now).length =
      (msgs.filter (fun m => m.role == Role.user && isImportantInfo m.content)).length ∧
    (∀ r ∈ extractedRecords msgs uid mkId now, r.userId = uid ∧
      ∃ m0 ∈ msgs, m0.role = Role.user ∧ isImportantInfo m0.content = true ∧
        r.content = m0.content) ∧
    (extractedRecords
      [{ id := "m1", sessionId := "s", role := Role.user, content := "我住在东京"
         timestamp := 0 }] uid mkId now).length = 1 ∧
    isImportantInfo "I live in Tokyo" = false ∧
    isImportantInfo "nice weather today" = false := by
  refine ⟨storeGet_addMemoryLocal_self store msgs uid mkId now, ?_, ?_, ?_, by decide, by decide⟩
  · simp [extractedRecords]
  · intro r hr
    simp only [extractedRecords, List.mem_map] at hr
    obtain ⟨p, hp, hrp⟩ := hr
    have hsnd : p.2 ∈ (msgs.filter
        (fun m => m.role == Role.user && isImportantInfo m.content)).enum.map Prod.snd :=
      List.mem_map_of_mem Prod.snd hp
    rw [List.enum_map_snd] at hsnd
    have hmem := List.mem_filter.mp hsnd
    have hand := hmem.2
    simp only [Bool.and_eq_true, beq_iff_eq] at hand
    refine ⟨by rw [← hrp], p.2, hmem.1, hand.1, hand.2, by rw [← hrp]⟩
  · simp [extractedRecords]
    decide

/-! ## Search ranking lemmas -/

/-- Membership in an insertion step. -/
theorem mem_insDesc (x a : Memory) (l : List Memory) :
    a ∈ insDesc x l ↔ a = x ∨ a ∈ l := by
  induction l with
  | nil => simp [insDesc]
  | cons y ys ih =>
    simp only [insDesc]
    split
    · simp only [List.mem_cons, ih]
      tauto
    · simp only [List.mem_cons]

/-- Inserting preserves descending order. -/
theorem insDesc_pairwise (x : Memory) (l : List Memory)
    (h : l.Pairwise (fun a b => memScore b ≤ memScore a)) :
    (insDesc x l).Pairwise (fun a b => memScore b ≤ memScore a) := by
  induction l with
  | nil => simp [insDesc]
  | cons y ys ih =>
    rw [List.pairwise_cons] at h
    simp only [insDesc]
    split
    · next hlt =>
      rw [List.pairwise_cons]
      refine ⟨?_, ih h.2⟩
      intro a ha
      rcases (mem_insDesc x a ys).mp ha with rfl | ha
      · exact le_of_lt hlt
      · exact h.1 a ha
    · next hge =>
      rw [List.pairwise_cons]
      refine ⟨?_, List.pairwise_cons.mpr h⟩
      intro a ha
      rcases List.mem_cons.mp ha with rfl | ha
      · exact le_of_not_lt hge
      · exact le_trans (h.1 a ha) (le_of_not_lt hge)

/-- The sort output is descending in score. -/
theorem sortDesc_pairwise (l : List Memory) :
    (sortDesc l).Pairwise (fun a b => memScore b ≤ memScore a) := by
  induction l with
  | nil => simp [sortDesc]
  | cons x xs ih => exact insDesc_pairwise x (sortDesc xs) ih

/-- Insertion is a permutation of consing. -/
theorem insDesc_perm (x : Memory) (l : List Memory) : (insDesc x l).Perm (x :: l) := by
  induction l with
  | nil => simp [insDesc]
  | cons y ys ih =>
    simp only [insDesc]
    split
    · exact (ih.cons y).trans (List.Perm.swap x y ys)
    · exact List.Perm.refl _

/-- The sort permutes its input. -/
theorem sortDesc_perm (l : List Memory) : (sortDesc l).Perm l := by
  induction l with
  | nil => simp [sortDesc]
  | cons x xs ih => exact (insDesc_perm x (sortDesc xs)).trans (ih.cons x)

/-- Inserting is stable on each score class: filtering a score keeps the
previously present class, with the new element in front exactly when it
has that score. -/
theorem insDesc_filter_score (x : Memory) (l : List Memory) (q : Rat) :
    (insDesc x l).filter (fun m => decide (memScore m = q)) =
      if memScore x = q then x :: l.filter (fun m => decide (memScore m = q))
      else l.filter (fun m => decide (memScore m = q)) := by
  induction l with
  | nil =>
    by_cases hx : memScore x = q
    · rw [if_pos hx]
      simp [insDesc, List.filter_cons, hx]
    · rw [if_neg hx]
      simp [insDesc, List.filter_cons, hx]
  | cons y ys ih =>
    simp only [insDesc]
    split
    · next hlt =>
      by_cases hx : memScore x = q
      · have hy : ¬(memScore y = q) := by
          intro hy
          rw [hx] at hlt
          rw [hy] at hlt
          exact lt_irrefl q hlt
        rw [if_pos hx, List.filter_cons, List.filter_cons]
        rw [if_neg (by simp [hy]), if_neg (by simp [hy]), ih, if_pos hx]
      · rw [if_neg hx, List.filter_cons, List.filter_cons]
        by_cases hy : memScore y = q
        · rw [if_pos (by simp [hy]), if_pos (by simp [hy]), ih, if_neg hx]
        · rw [if_neg (by simp [hy]), if_neg (by simp [hy]), ih, if_neg hx]
    · next hge =>
      rw [List.filter_cons]
      by_cases hx : memScore x = q
      · rw [if_pos (by simp [hx]), if_pos hx]
      · rw [if_neg (by simp [hx]), if_neg hx]

/-- Stability of the whole sort: each score class of the output equals
the class of the input, in input (storage) order. -/
theorem sortDesc_filter_score (l : List Memory) (q : Rat) :
    (sortDesc l).filter (fun m => decide (memScore m = q)) =
      l.filter (fun m => decide (memScore m = q)) := by
  induction l with
  | nil => rfl
  | cons x xs ih =>
    simp only [sortDesc]
    rw [insDesc_filter_score, ih, List.filter_cons]
    by_cases hx : memScore x = q
    · rw [if_pos hx, if_pos (by simp [hx])]
    · rw [if_neg hx, if_neg (by simp [hx])]

/-- All query tokens present as substrings means relevance exactly 1. -/
theorem calculateRelevance_full (content : String) (qw : List String)
    (hqw : qw ≠ [])
    (hall : ∀ w ∈ qw, strIncludes (jsToLower content) w = true) :
    calculateRelevance content qw = 1 := by
  simp only [calculateRelevance]
  have hfilter : qw.filter (fun w => strIncludes (jsToLower content) w) = qw :=
    List.filter_eq_self.mpr hall
  rw [if_pos (List.length_pos.mpr hqw), hfilter]
  have hlen : (qw.length : Rat) ≠ 0 := by
    simp only [ne_eq, Nat.cast_eq_zero]
    exact fun h => hqw (List.length_eq_zero.mp h)
  exact div_self hlen

/-- C6.  `searchMemoryLocal` scores each stored record of the user as
(matching query tokens)/(query tokens), drops zero scores, sorts
descending with ties in storage order, and truncates to `limit`; every
result carries its recorded relevance, and a record containing every
token scores exactly 1, placing it (by the descending order) ahead of
all partial matches. -/
theorem searchMemory_ranking (store : Store) (query uid : String) (limit : Nat) :
    (searchMemoryLocal store query uid limit = (sortDesc (keptRecords store query uid)).take limit ∧
      keptRecords store query uid =
        ((storeGet store uid).map (rescore (jsSplitWs (jsToLower query)))).filter
          (fun m => decide (0 < memScore m))) ∧
    (searchMemoryLocal store query uid limit).length ≤ limit ∧
    (searchMemoryLocal store query uid limit).Pairwise
      (fun a b => memScore b ≤ memScore a) ∧
    (∀ q : Rat,
      (sortDesc (keptRecords store query uid)).filter (fun m => decide (memScore m = q)) =
        (keptRecords store query uid).filter (fun m => decide (memScore m = q))) ∧
    (∀ m ∈ searchMemoryLocal store query uid limit,
      0 < memScore m ∧
      m.score = some (calculateRelevance m.content (jsSplitWs (jsToLower query)))) ∧
    (∀ content : String, jsSplitWs (jsToLower query) ≠ [] →
      (∀ w ∈ jsSplitWs (jsToLower query), strIncludes (jsToLower content) w = true) →
      calculateRelevance content (jsSplitWs (jsToLower query)) = 1) := by
  refine ⟨⟨rfl, rfl⟩, ?_, ?_, ?_, ?_, ?_⟩
  · simp only [searchMemoryLocal]
    exact (List.length_take _ _).trans_le (Nat.min_le_left _ _)
  · simp only [searchMemoryLocal]
    exact (sortDesc_pairwise _).sublist (List.take_sublist _ _)
  · intro q
    exact sortDesc_filter_score _ q
  · intro m hm
    simp only [searchMemoryLocal] at hm
    have hsort := (List.take_sublist _ _).mem hm
    have hkept := (sortDesc_perm _).mem_iff.mp hsort
    have hfil := List.mem_filter.mp hkept
    have hpos : 0 < memScore m := by
      have h2 := hfil.2
      simpa [decide_eq_true_eq] using h2
    refine ⟨hpos, ?_⟩
    obtain ⟨m0, _, rfl⟩ := List.mem_map.mp hfil.1
    rfl
  · intro content hne hall
    exact calculateRelevance_full content _ hne hall

/-! ## User isolation lemmas -/

/-- Extracted records carry the target userId. -/
theorem extractedRecords_userId (msgs : List Message) (uid : String) (mkId : Nat → String)
    (now : Nat) : ∀ r ∈ extractedRecords msgs uid mkId now, r.userId = uid := by
  intro r hr
  obtain ⟨p, _, rfl⟩ := List.mem_map.mp hr
  rfl

/-- `addMemoryLocal` preserves store well-formedness. -/
theorem addMemoryLocal_wf (store : Store) (msgs : List Message) (uid : String)
    (mkId : Nat → String) (now : Nat) (h : StoreWF store) :
    StoreWF (addMemoryLocal store msgs uid mkId now) := by
  simp only [addMemoryLocal]
  split
  · intro e he m hm
    obtain ⟨e0, he0, rfl⟩ := List.mem_map.mp he
    by_cases hk : (e0.1 == uid) = true
    · rw [if_pos hk] at hm ⊢
      simp only at hm ⊢
      rcases List.mem_append.mp hm with hm | hm
      · exact h e0 he0 m hm
      · rw [extractedRecords_userId msgs uid mkId now m hm]
        exact (beq_iff_eq.mp hk).symm
    · rw [if_neg hk] at hm ⊢
      exact h e0 he0 m hm
  · intro e he m hm
    rcases List.mem_append.mp he with he | he
    · exact h e he m hm
    · rcases List.mem_singleton.mp he with rfl
      exact extractedRecords_userId msgs uid mkId now m hm

/-- `deleteMemoryLocal` preserves store well-formedness. -/
theorem deleteMemoryLocal_wf (store : Store) (mid : String) (h : StoreWF store) :
    StoreWF (deleteMemoryLocal store mid) := by
  induction store with
  | nil => exact h
  | cons e rest ih =>
    simp only [deleteMemoryLocal]
    split
    · intro e1 he1 m hm
      rcases List.mem_cons.mp he1 with heq | he1
      · subst heq
        have hm2 : m ∈ e.2 := (List.eraseP_sublist _).mem hm
        exact h e (List.mem_cons_self e rest) m hm2
      · exact h e1 (List.mem_cons_of_mem e he1) m hm
    · intro e1 he1 m hm
      rcases List.mem_cons.mp he1 with heq | he1
      · subst heq
        exact h e (List.mem_cons_self e rest) m hm
      · exact ih (fun e2 he2 => h e2 (List.mem_cons_of_mem e he2)) e1 he1 m hm

/-- Reading a well-formed store returns only that user's records. -/
theorem storeGet_userId (store : Store) (uid : String) (h : StoreWF store) :
    ∀ m ∈ storeGet store uid, m.userId = uid := by
  induction store with
  | nil =>
    intro m hm
    simp [storeGet, List.find?] at hm
  | cons e rest ih =>
    intro m hm
    by_cases hk : (e.1 == uid) = true
    · rw [storeGet_cons_pos e rest uid hk] at hm
      rw [h e (List.mem_cons_self e rest) m hm]
      exact beq_iff_eq.mp hk
    · have hk2 : (e.1 == uid) = false := by simpa using hk
      rw [storeGet_cons_neg e rest uid hk2] at hm
      exact ih (fun e2 he2 => h e2 (List.mem_cons_of_mem e he2)) m hm

/-- A deletion never grows any user's list. -/
theorem storeGet_deleteMemoryLocal_sublist (store : Store) (mid uid : String) :
    (storeGet (deleteMemoryLocal store mid) uid).Sublist (storeGet store uid) := by
  induction store with
  | nil => exact List.Sublist.refl _
  | cons e rest ih =>
    simp only [deleteMemoryLocal]
    split
    · by_cases hk : (e.1 == uid) = true
      · rw [storeGet_cons_pos (e.1, List.eraseP (fun m => m.id == mid) e.2) rest uid hk]
        rw [storeGet_cons_pos e rest uid hk]
        exact List.eraseP_sublist _
      · have hk2 : (e.1 == uid) = false := by simpa using hk
        rw [storeGet_cons_neg (e.1, List.eraseP (fun m => m.id == mid) e.2) rest uid hk2]
        rw [storeGet_cons_neg e rest uid hk2]
    · by_cases hk : (e.1 == uid) = true
      · rw [storeGet_cons_pos e (deleteMemoryLocal rest mid) uid hk]
        rw [storeGet_cons_pos e rest uid hk]
      · have hk2 : (e.1 == uid) = false := by simpa using hk
        rw [storeGet_cons_neg e (deleteMemoryLocal rest mid) uid hk2]
        rw [storeGet_cons_neg e rest uid hk2]
        exact ih

/-- A run keeps the store well-formed. -/
theorem runFold_wf (ops : List MemOp) (store : Store) (h : StoreWF store) :
    StoreWF (ops.foldl applyMemOp store) := by
  induction ops generalizing store with
  | nil => exact h
  | cons op ops ih =>
    rw [List.foldl_cons]
    apply ih
    cases op with
    | add msgs u mkId now => exact addMemoryLocal_wf store msgs u mkId now h
    | del mid => exact deleteMemoryLocal_wf store mid h

/-- Provenance: along any run, a user's list stays a sublist of the
records the run's `addMemory` calls created for that user. -/
theorem runFold_sublist_added (uid : String) (ops : List MemOp) (store : Store)
    (acc : List Memory) (h : (storeGet store uid).Sublist acc) :
    (storeGet (ops.foldl applyMemOp store) uid).Sublist
      (ops.foldl
        (fun acc op =>
          match op with
          | MemOp.add msgs u mkId now =>
            if u == uid then acc ++ extractedRecords msgs uid mkId now else acc
          | MemOp.del _ => acc)
        acc) := by
  induction ops generalizing store acc with
  | nil => exact h
  | cons op ops ih =>
    rw [List.foldl_cons, List.foldl_cons]
    cases op with
    | add msgs u mkId now =>
      apply ih
      dsimp only [applyMemOp]
      by_cases hu : (u == uid) = true
      · rw [if_pos hu]
        have hequ : u = uid := beq_iff_eq.mp hu
        rw [hequ, storeGet_addMemoryLocal_self store msgs uid mkId now]
        exact h.append (List.Sublist.refl _)
      · rw [if_neg hu]
        have hne : u ≠ uid := by simpa using hu
        rw [storeGet_addMemoryLocal_other store msgs u uid mkId now hne]
        exact h
    | del mid =>
      apply ih
      dsimp only [applyMemOp]
      exact (storeGet_deleteMemoryLocal_sublist store mid uid).trans h

/-- Search results come from the searched user's stored list. -/
theorem searchMemoryLocal_source (store : Store) (q uid : String) (k : Nat) :
    ∀ m ∈ searchMemoryLocal store q uid k,
      ∃ m0 ∈ storeGet store uid, m = rescore (jsSplitWs (jsToLower q)) m0 := by
  intro m hm
  simp only [searchMemoryLocal] at hm
  have hsort := (List.take_sublist _ _).mem hm
  have hkept := (sortDesc_perm _).mem_iff.mp hsort
  have hfil := List.mem_filter.mp hkept
  obtain ⟨m0, hm0, rfl⟩ := List.mem_map.mp hfil.1
  exact ⟨m0, hm0, rfl⟩

/-- C9.  Every record a run stores under a user belongs to that user and
was created by an `addMemory` call for that same user; `searchMemory`
and `getAllMemories` return only such records, and `addMemory` calls
for a different user never change either result. -/
theorem memory_user_isolation (ops : List MemOp) (store : Store) (q uid uid2 : String)
    (k : Nat) (msgs : List Message) (mkId : Nat → String) (now : Nat) :
    (∀ m ∈ getAllMemoriesLocal (runMemOps ops) uid, m.userId = uid) ∧
    (∀ m ∈ searchMemoryLocal (runMemOps ops) q uid k, m.userId = uid) ∧
    (getAllMemoriesLocal (runMemOps ops) uid).Sublist (addedFor ops uid) ∧
    (uid2 ≠ uid →
      getAllMemoriesLocal (addMemoryLocal store msgs uid2 mkId now) uid =
        getAllMemoriesLocal store uid ∧
      searchMemoryLocal (addMemoryLocal store msgs uid2 mkId now) q uid k =
        searchMemoryLocal store q uid k) := by
  have hwf : StoreWF (runMemOps ops) := runFold_wf ops [] (by intro e he; simp at he)
  refine ⟨?_, ?_, ?_, ?_⟩
  · intro m hm
    exact storeGet_userId (runMemOps ops) uid hwf m hm
  · intro m hm
    obtain ⟨m0, hm0, rfl⟩ := searchMemoryLocal_source (runMemOps ops) q uid k m hm
    show m0.userId = uid
    exact storeGet_userId (runMemOps ops) uid hwf m0 hm0
  · exact runFold_sublist_added uid ops [] [] (by simp [storeGet, List.find?])
  · intro hne
    constructor
    · exact storeGet_addMemoryLocal_other store msgs uid2 uid mkId now hne
    · simp only [searchMemoryLocal, keptRecords,
        storeGet_addMemoryLocal_other store msgs uid2 uid mkId now hne]

end InfiniteChat
